import Mathlib

/-!
Verification of `src/benchmark.py` from the `betterwalk` repository.

The file models the two ctypes-based `os_listdir` variants (Windows:
`FindFirstFile` / `FindNextFile` / `FindClose`; POSIX: `opendir` /
`readdir_r` / `closedir`) and the recursive generator `os_walk` built on
top of them.  The native OS is modelled as an oracle: a record describing
how the native calls behave for one directory (the entries they produce
and where, if anywhere, they fail), and a tree of filesystem nodes for
the walker.  Machine-level details (handles, ctypes buffers) are
abstracted into this oracle; the control flow of the Python functions is
translated statement by statement.
-/

namespace Betterwalk

/-- Uniform error taxonomy of the spec: `NotFound`, `PermissionDenied`,
`OsError(code)`. -/
inductive OsErr where
  | notFound
  | permissionDenied
  | osError (code : Nat)
deriving DecidableEq, Repr

/-- Windows status `ERROR_FILE_NOT_FOUND`. -/
def ERROR_FILE_NOT_FOUND : Nat := 2
/-- Windows status `ERROR_PATH_NOT_FOUND`. -/
def ERROR_PATH_NOT_FOUND : Nat := 3
/-- Windows status `ERROR_ACCESS_DENIED`. -/
def ERROR_ACCESS_DENIED : Nat := 5
/-- Windows status `ERROR_NO_MORE_FILES`. -/
def ERROR_NO_MORE_FILES : Nat := 18
/-- POSIX errno `ENOENT`. -/
def ENOENT : Nat := 2
/-- POSIX errno `EACCES`. -/
def EACCES : Nat := 13
/-- POSIX errno `ENOTDIR`. -/
def ENOTDIR : Nat := 20

/-- Modelled from the spec: `betterwalk.win_error` (the `betterwalk`
module itself is not under `src/`) translates a native Windows status
code into the uniform taxonomy: the two not-found statuses map to
`NotFound`, access-denied maps to `PermissionDenied`, and any other
status is wrapped as `OsError(code)`. -/
def win_error (code : Nat) : OsErr :=
  if code = ERROR_FILE_NOT_FOUND ∨ code = ERROR_PATH_NOT_FOUND then .notFound
  else if code = ERROR_ACCESS_DENIED then .permissionDenied
  else .osError code

/-- Modelled from the spec: `betterwalk.posix_error` (the `betterwalk`
module itself is not under `src/`) translates the current `errno` into
the uniform taxonomy: `ENOENT` maps to `NotFound`, `EACCES` to
`PermissionDenied`, anything else to `OsError(code)`. -/
def posix_error (errno : Nat) : OsErr :=
  if errno = ENOENT then .notFound
  else if errno = EACCES then .permissionDenied
  else .osError errno

/-- The test `name not in ('.', '..')` from both enumeration loops. -/
def keepName (n : String) : Bool :=
  !(n = "." ∨ n = "..")

/-- "Ground truth minus the self/parent pseudo-entries": the filter both
loops apply to the raw native listing. -/
def removeDots (l : List String) : List String :=
  l.filter keepName

/-- Oracle describing how the native Windows calls behave for one
directory-listing call (`os_listdir`, win32 branch).
`openError = some code` means `FindFirstFile` returned
`INVALID_HANDLE_VALUE` and `GetLastError()` gave `code`; `entries` are
the successive `cFileName` values retrieved (the first filled in by
`FindFirstFile`, the rest by `FindNextFile`); after the last one,
`FindNextFile` returns false with `GetLastError() = endError`
(`ERROR_NO_MORE_FILES` for clean exhaustion, anything else is a failure
mid-enumeration); `closeOk` tells whether `FindClose` succeeds, and
`closeError` is `GetLastError()` when it does not. -/
structure WinDir where
  openError : Option Nat
  entries : List String
  endError : Nat
  closeOk : Bool
  closeError : Nat
deriving DecidableEq, Repr

/-- The `while True` body of the win32 `os_listdir`: process each
retrieved name (filtering `'.'`/`'..'`), then interpret the final failed
`FindNextFile`: `ERROR_NO_MORE_FILES` breaks the loop, any other status
raises that code. -/
def winLoop : List String → Nat → List String → Except Nat (List String)
  | [], endError, names =>
      if endError = ERROR_NO_MORE_FILES then .ok names else .error endError
  | n :: rest, endError, names =>
      winLoop rest endError (if keepName n then names ++ [n] else names)

/-- Result of one `os_listdir` call together with the number of native
close calls (`FindClose` / `closedir`) it performed. -/
structure ListdirOutcome where
  result : Except OsErr (List String)
  closes : Nat
deriving Repr

/-- The win32 `os_listdir` (src/benchmark.py lines 20-45).  If
`FindFirstFile` fails, `ERROR_FILE_NOT_FOUND` yields an empty listing
and any other status raises `win_error`, in both cases without a
`FindClose`.  Otherwise the enumeration loop runs inside `try`, and the
`finally` block calls `FindClose` exactly once, raising `win_error` of
the close status if it fails (which replaces the body's outcome, as in
Python). -/
def os_listdir_win (d : WinDir) : ListdirOutcome :=
  match d.openError with
  | some error =>
      if error = ERROR_FILE_NOT_FOUND then { result := .ok [], closes := 0 }
      else { result := .error (win_error error), closes := 0 }
  | none =>
      let body := winLoop d.entries d.endError []
      { result :=
          if d.closeOk then
            match body with
            | .ok names => .ok names
            | .error code => .error (win_error code)
          else .error (win_error d.closeError),
        closes := 1 }

/-- Oracle describing how the native POSIX calls behave for one
directory-listing call (`os_listdir`, POSIX branch).  `openOk` tells
whether `opendir` returned a non-null stream (`openErrno` is `errno`
when it did not); `entries` are the names produced by the successful
`readdir_r` steps; after them `readdir_r` either returns a nonzero
status with `errno = e` (`readError = some e`) or sets the result
pointer to null, ending the loop (`readError = none`); `closeOk` tells
whether `closedir` returned 0, and `closeErrno` is `errno` when it did
not. -/
structure PosixDir where
  openOk : Bool
  openErrno : Nat
  entries : List String
  readError : Option Nat
  closeOk : Bool
  closeErrno : Nat
deriving DecidableEq, Repr

/-- The `while True` body of the POSIX `os_listdir`: each successful
`readdir_r` yields a name (filtered of `'.'`/`'..'` before being
appended); afterwards either `readdir_r` fails, raising its errno, or
the result pointer is null and the loop breaks. -/
def posixLoop : List String → Option Nat → List String → Except Nat (List String)
  | [], readError, names =>
      match readError with
      | some e => .error e
      | none => .ok names
  | n :: rest, readError, names =>
      posixLoop rest readError (if keepName n then names ++ [n] else names)

/-- The POSIX `os_listdir` (src/benchmark.py lines 48-67).  A null
stream from `opendir` raises `posix_error` with no `closedir`.
Otherwise the loop runs inside `try` and the `finally` block calls
`closedir` exactly once, raising `posix_error` of its errno if it
returns nonzero (replacing the body's outcome, as in Python). -/
def os_listdir_posix (d : PosixDir) : ListdirOutcome :=
  if d.openOk then
    let body := posixLoop d.entries d.readError []
    { result :=
        if d.closeOk then
          match body with
          | .ok names => .ok names
          | .error e => .error (posix_error e)
        else .error (posix_error d.closeErrno),
      closes := 1 }
  else { result := .error (posix_error d.openErrno), closes := 0 }

/-- A node of the modelled filesystem tree (the oracle behind
`os.path.isdir`, `os.path.islink` and the `os_listdir` call that
`os_walk` makes).  `dir entries` is a readable directory whose
(already `'.'`/`'..'`-filtered) listing binds each entry name to the
node the corresponding path designates; `badDir e` is a directory that
exists (`isdir` is true) but whose `os_listdir` raises the `OSError`
`e`; `link target` is a symbolic link to `target`.  Symlink structures
are acyclic by construction (the reference leaves cycles unspecified). -/
inductive FSNode where
  | file
  | dir (entries : List (String × FSNode))
  | badDir (e : OsErr)
  | link (target : FSNode)

/-- Model of `os.path.isdir`: follows symbolic links; an unreadable
directory still stats as a directory. -/
def is_dir : FSNode → Bool
  | .file => false
  | .dir _ => true
  | .badDir _ => true
  | .link t => is_dir t

/-- Model of `os.path.islink`. -/
def is_link : FSNode → Bool
  | .link _ => true
  | _ => false

/-- A path, as the list of its segments; `os.path.join top name` becomes
`top ++ [name]` (entry names carry no separator). -/
abbrev Path := List String

/-- One `(top, dirs, nondirs)` triple yielded by `os_walk`. -/
abbrev Frame := Path × List String × List String

/-- One delivery of an `OSError` to the `onerror` handler, with the path
the error carries. -/
abbrev WalkErr := Path × OsErr

/-- The subdirectory names of a listing, in native order: the names
`os_walk` appends to `dirs` (those whose joined path satisfies
`os.path.isdir`). -/
def dirNames (es : List (String × FSNode)) : List String :=
  (es.filter fun p => is_dir p.2).map Prod.fst

/-- The non-directory names of a listing, in native order: the names
`os_walk` appends to `nondirs`. -/
def fileNames (es : List (String × FSNode)) : List String :=
  (es.filter fun p => !is_dir p.2).map Prod.fst

mutual

/-- The recursive generator `os_walk` (src/benchmark.py lines 72-98),
run to completion: the pair of the list of frames it yields, in yield
order, and the list of errors it delivers to `onerror` (empty deliveries
when `ho` — "`onerror is not None`" — is false).  `td` is `topdown`,
`fl` is `followlinks`.  Listing a directory either fails — the `except
OSError` branch delivers the error to the handler if present and
returns — or produces the entries, which are partitioned into `dirs`
and `nondirs` by `os.path.isdir`; the frame is yielded before the
recursion when `topdown` and after it otherwise, and `walkDirs`
realizes the `for name in dirs` loop.  Walking a symlink path operates
on its target, and walking a non-directory raises `ENOTDIR` from
`opendir`. -/
def os_walk (td ho fl : Bool) : Path → FSNode → List Frame × List WalkErr
  | top, .file =>
      ([], if ho then [(top, posix_error ENOTDIR)] else [])
  | top, .badDir e =>
      ([], if ho then [(top, e)] else [])
  | top, .link t => os_walk td ho fl top t
  | top, .dir names =>
      let dirs := names.filter fun p => is_dir p.2
      let nondirs := names.filter fun p => !is_dir p.2
      let frame : Frame := (top, dirs.map Prod.fst, nondirs.map Prod.fst)
      let subs := walkDirs td ho fl top dirs
      ((if td then [frame] else []) ++ subs.1 ++ (if td then [] else [frame]),
       subs.2)
termination_by _ node => sizeOf node
decreasing_by
  · simp only [FSNode.link.sizeOf_spec]; omega
  · have hle : ∀ l : List (String × FSNode),
        sizeOf (l.filter fun p => is_dir p.2) ≤ sizeOf l := by
      intro l
      induction l with
      | nil => simp [List.filter]
      | cons a l ih =>
          rw [List.filter]
          cases is_dir a.2 <;> simp only [List.cons.sizeOf_spec] <;> omega
    have := hle names
    simp only [FSNode.dir.sizeOf_spec]
    omega

/-- The `for name in dirs` loop of `os_walk` (src/benchmark.py lines
92-96): for each entry in order, if `followlinks` is true or the entry
is not a symbolic link, recurse and emit all of its frames and error
deliveries before moving to the next entry. -/
def walkDirs (td ho fl : Bool) : Path → List (String × FSNode) →
    List Frame × List WalkErr
  | _, [] => ([], [])
  | top, p :: rest =>
      let child :=
        if fl || !is_link p.2 then os_walk td ho fl (top ++ [p.1]) p.2
        else ([], [])
      let tail := walkDirs td ho fl top rest
      (child.1 ++ tail.1, child.2 ++ tail.2)
termination_by _ l => sizeOf l
decreasing_by
  · obtain ⟨n, c⟩ := p
    simp only [Prod.mk.sizeOf_spec, List.cons.sizeOf_spec]
    omega
  · simp only [List.cons.sizeOf_spec]
    omega

end

/-- The recursion `os_walk` performs for one entry of `dirs`: the walk
of the joined path when `followlinks` is true or the entry is not a
symbolic link, nothing otherwise. -/
def childWalk (td ho fl : Bool) (top : Path) (p : String × FSNode) :
    List Frame × List WalkErr :=
  if fl || !is_link p.2 then os_walk td ho fl (top ++ [p.1]) p.2 else ([], [])

mutual

/-- Variant of `os_walk` modelling the caller-mutable `dirs` list of the
reference semantics: `os_walk` yields the very list object it will
iterate, so in top-down mode the consumer may have replaced its
contents — modelled as a function `mutate` of the yielded path and
original contents — by the time the `for name in dirs` loop resumes,
and the loop then iterates the mutated contents.  In bottom-up mode the
frame is yielded only after the loop, so mutation cannot influence the
recursion and the original list is iterated.  `walkNames` resolves each
iterated name against the directory's listing; a name not (or no
longer) present designates a nonexistent path, whose walk fails with
`NotFound` as `os_listdir` would. -/
def os_walk_mut (mutate : Path → List String → List String)
    (td ho fl : Bool) : Path → FSNode → List Frame × List WalkErr
  | top, .file => ([], if ho then [(top, posix_error ENOTDIR)] else [])
  | top, .badDir e => ([], if ho then [(top, e)] else [])
  | top, .link t => os_walk_mut mutate td ho fl top t
  | top, .dir names =>
      let dirs := names.filter fun p => is_dir p.2
      let nondirs := names.filter fun p => !is_dir p.2
      let frame : Frame := (top, dirs.map Prod.fst, nondirs.map Prod.fst)
      let iter := if td then mutate top (dirs.map Prod.fst)
                  else dirs.map Prod.fst
      let subs := walkNames mutate td ho fl top dirs iter
      ((if td then [frame] else []) ++ subs.1 ++ (if td then [] else [frame]),
       subs.2)
termination_by _ node => (sizeOf node, 0)
decreasing_by
  · apply Prod.Lex.left
    simp only [FSNode.link.sizeOf_spec]; omega
  · apply Prod.Lex.left
    have hle : ∀ l : List (String × FSNode),
        sizeOf (l.filter fun p => is_dir p.2) ≤ sizeOf l := by
      intro l
      induction l with
      | nil => simp [List.filter]
      | cons a l ih =>
          rw [List.filter]
          cases is_dir a.2 <;> simp only [List.cons.sizeOf_spec] <;> omega
    have := hle names
    simp only [FSNode.dir.sizeOf_spec]
    omega

/-- The `for name in dirs` loop of `os_walk_mut`, iterating the
(possibly mutated) name sequence `iter` against the listing `dirs`. -/
def walkNames (mutate : Path → List String → List String) (td ho fl : Bool)
    (top : Path) (dirs : List (String × FSNode)) :
    List String → List Frame × List WalkErr
  | [] => ([], [])
  | name :: rest =>
      let child :=
        match h : dirs.find? fun p => p.1 == name with
        | some p =>
            if fl || !is_link p.2 then
              os_walk_mut mutate td ho fl (top ++ [name]) p.2
            else ([], [])
        | none => ([], if ho then [(top ++ [name], OsErr.notFound)] else [])
      let tail := walkNames mutate td ho fl top dirs rest
      (child.1 ++ tail.1, child.2 ++ tail.2)
termination_by iter => (sizeOf dirs, sizeOf iter)
decreasing_by
  · apply Prod.Lex.left
    have hmem := List.mem_of_find?_eq_some h
    have hlt := List.sizeOf_lt_of_mem hmem
    obtain ⟨n, c⟩ := p
    simp only [Prod.mk.sizeOf_spec] at hlt ⊢
    omega
  · apply Prod.Lex.right
    simp only [List.cons.sizeOf_spec]
    omega

end

/-- The error-isolation scenario of the spec: a tree `root/dirA/dirB`
and `root/dirC`, where `dirB` is unreadable (permission denied). -/
def errTree : FSNode :=
  .dir [("dirA", .dir [("dirB", .badDir .permissionDenied)]),
        ("dirC", .dir [])]

/-- The recursion `os_walk_mut` performs for one iterated name: resolve
it in the listing, then recurse unless it is a symbolic link and
`followlinks` is false; an unresolved name is a nonexistent path whose
walk fails with `NotFound`. -/
def childWalkMut (mutate : Path → List String → List String)
    (td ho fl : Bool) (top : Path) (dirs : List (String × FSNode))
    (name : String) : List Frame × List WalkErr :=
  match dirs.find? fun p => p.1 == name with
  | some p =>
      if fl || !is_link p.2 then
        os_walk_mut mutate td ho fl (top ++ [name]) p.2
      else ([], [])
  | none => ([], if ho then [(top ++ [name], OsErr.notFound)] else [])

theorem walkDirs_cons (td ho fl : Bool) (top : Path)
    (p : String × FSNode) (rest : List (String × FSNode)) :
    walkDirs td ho fl top (p :: rest) =
      ((childWalk td ho fl top p).1 ++ (walkDirs td ho fl top rest).1,
       (childWalk td ho fl top p).2 ++ (walkDirs td ho fl top rest).2) := by
  simp only [walkDirs, childWalk]

theorem os_walk_dir (td ho fl : Bool) (top : Path)
    (names : List (String × FSNode)) :
    os_walk td ho fl top (.dir names) =
      ((if td then [(top, dirNames names, fileNames names)] else [])
         ++ (walkDirs td ho fl top (names.filter fun p => is_dir p.2)).1
         ++ (if td then [] else [(top, dirNames names, fileNames names)]),
       (walkDirs td ho fl top (names.filter fun p => is_dir p.2)).2) := by
  simp only [os_walk, dirNames, fileNames]

/-! ### Behaviour of the two enumeration loops -/

theorem winLoop_eq (entries : List String) (endError : Nat)
    (acc : List String) :
    winLoop entries endError acc =
      if endError = ERROR_NO_MORE_FILES then .ok (acc ++ removeDots entries)
      else .error endError := by
  induction entries generalizing acc with
  | nil => simp [winLoop, removeDots, List.filter]
  | cons n rest ih =>
      rw [winLoop, ih]
      by_cases h : keepName n = true <;>
        simp [removeDots, List.filter, h, List.append_assoc]

theorem posixLoop_eq (entries : List String) (readError : Option Nat)
    (acc : List String) :
    posixLoop entries readError acc =
      match readError with
      | some e => .error e
      | none => .ok (acc ++ removeDots entries) := by
  induction entries generalizing acc with
  | nil => cases readError <;> simp [posixLoop, removeDots, List.filter]
  | cons n rest ih =>
      rw [posixLoop, ih]
      by_cases h : keepName n = true <;> cases readError <;>
        simp [removeDots, List.filter, h, List.append_assoc]

/-! ### Claims about the enumerator -/

/-- C1: for every directory whose enumeration session opens successfully,
`os_listdir` closes the native resource (`FindClose` on Windows,
`closedir` on POSIX) exactly once on every termination path — normal
exhaustion or an error raised mid-enumeration — and for every directory
whose open fails (`INVALID_HANDLE_VALUE` / null stream pointer), no
close call is ever made on the never-opened resource.  The oracles `w`
and `p` range over all possible native behaviours, so every termination
path is covered. -/
theorem claim_C1_close_exactly_once (w : WinDir) (p : PosixDir) :
    (os_listdir_win w).closes = (if w.openError = none then 1 else 0) ∧
    (os_listdir_posix p).closes = (if p.openOk then 1 else 0) := by
  constructor
  · cases h : w.openError
    · simp [os_listdir_win, h]
    · simp only [os_listdir_win, h]
      split <;> simp
  · cases h : p.openOk <;> simp [os_listdir_posix, h]

/-- C2: one full successful call of `os_listdir` returns exactly the
names of the OS's ground-truth listing (the sequence of entries the
native calls produce) with the `'.'` and `'..'` pseudo-entries removed:
no duplicates (when the ground truth has none), no omissions, and no
pseudo-entry ever surfaced. -/
theorem claim_C2_groundtruth (entries : List String) (ce oe ce2 : Nat) :
    (os_listdir_win ⟨none, entries, ERROR_NO_MORE_FILES, true, ce⟩).result
        = .ok (removeDots entries) ∧
    (os_listdir_posix ⟨true, oe, entries, none, true, ce2⟩).result
        = .ok (removeDots entries) ∧
    (entries.Nodup → (removeDots entries).Nodup) ∧
    "." ∉ removeDots entries ∧ ".." ∉ removeDots entries := by
  refine ⟨?_, ?_, fun h => h.filter _, ?_, ?_⟩
  · simp [os_listdir_win, winLoop_eq]
  · simp [os_listdir_posix, posixLoop_eq]
  · simp [removeDots, keepName, List.mem_filter]
  · simp [removeDots, keepName, List.mem_filter]

theorem claim_C2_groundtruth_witness :
    (os_listdir_win ⟨none, ["a", ".", "..", "b"], ERROR_NO_MORE_FILES, true, 0⟩).result
        = .ok (removeDots ["a", ".", "..", "b"]) ∧
    (removeDots ["a", ".", "..", "b"]).Nodup ∧
    removeDots ["a", ".", "..", "b"] = ["a", "b"] := by
  obtain ⟨h1, h2, h3, h4, h5⟩ := claim_C2_groundtruth ["a", ".", "..", "b"] 0 0 0
  exact ⟨h1, h3 (by decide), by decide⟩

/-- C6, counterexample: on the Windows variant, an open failure whose
native status is `ERROR_FILE_NOT_FOUND` — a status `win_error`
classifies as `NotFound` — does not fail at all: `os_listdir` returns a
successful empty listing (src/benchmark.py lines 27-28), contradicting
"opening an enumeration on a directory that does not exist fails with a
NotFound error". -/
theorem claim_C6_cex :
    win_error ERROR_FILE_NOT_FOUND = OsErr.notFound ∧
    (os_listdir_win ⟨some ERROR_FILE_NOT_FOUND, [], ERROR_NO_MORE_FILES,
        true, 0⟩).result = .ok [] ∧
    (os_listdir_win ⟨some ERROR_FILE_NOT_FOUND, [], ERROR_NO_MORE_FILES,
        true, 0⟩).closes = 0 := by
  refine ⟨by simp [win_error, ERROR_FILE_NOT_FOUND, ERROR_PATH_NOT_FOUND], rfl, rfl⟩

/-- C6, amended: a failed open never returns a usable session (no close
ever happens) and, except for the Windows `ERROR_FILE_NOT_FOUND` case —
which returns an empty listing instead of raising — surfaces the
translated error: `NotFound` for the native not-found statuses
(`ENOENT`, `ERROR_PATH_NOT_FOUND`), `PermissionDenied` for refused
access (`EACCES`, `ERROR_ACCESS_DENIED`), and `OsError(code)` for any
other native status. -/
theorem claim_C6_amended :
    (∀ d : PosixDir, d.openOk = false →
        (os_listdir_posix d).result = .error (posix_error d.openErrno) ∧
        (os_listdir_posix d).closes = 0) ∧
    posix_error ENOENT = .notFound ∧
    posix_error EACCES = .permissionDenied ∧
    (∀ e, e ≠ ENOENT → e ≠ EACCES → posix_error e = .osError e) ∧
    (∀ (d : WinDir) (c : Nat), d.openError = some c →
        (c = ERROR_FILE_NOT_FOUND → (os_listdir_win d).result = .ok []) ∧
        (c ≠ ERROR_FILE_NOT_FOUND →
          (os_listdir_win d).result = .error (win_error c)) ∧
        (os_listdir_win d).closes = 0) ∧
    win_error ERROR_PATH_NOT_FOUND = .notFound ∧
    win_error ERROR_ACCESS_DENIED = .permissionDenied ∧
    (∀ c, c ≠ ERROR_FILE_NOT_FOUND → c ≠ ERROR_PATH_NOT_FOUND →
        c ≠ ERROR_ACCESS_DENIED → win_error c = .osError c) := by
  refine ⟨?_, by simp [posix_error], ?_, ?_, ?_, ?_, ?_, ?_⟩
  · intro d h
    simp [os_listdir_posix, h]
  · simp [posix_error, EACCES, ENOENT]
  · intro e h1 h2
    simp [posix_error, h1, h2]
  · intro d c h
    refine ⟨fun hc => by simp [os_listdir_win, h, hc],
      fun hc => by simp [os_listdir_win, h, hc], ?_⟩
    simp only [os_listdir_win, h]
    split <;> rfl
  · simp [win_error, ERROR_PATH_NOT_FOUND, ERROR_FILE_NOT_FOUND]
  · simp [win_error, ERROR_ACCESS_DENIED, ERROR_FILE_NOT_FOUND,
      ERROR_PATH_NOT_FOUND]
  · intro c h1 h2 h3
    simp [win_error, h1, h2, h3]

theorem claim_C6_amended_witness :
    (os_listdir_posix ⟨false, ENOENT, [], none, true, 0⟩).result
        = .error OsErr.notFound ∧
    (os_listdir_win ⟨some ERROR_PATH_NOT_FOUND, [], ERROR_NO_MORE_FILES,
        true, 0⟩).result = .error OsErr.notFound ∧
    posix_error 7 = .osError 7 := by
  obtain ⟨hp, he, ha, ho, hw, hwp, hwa, hwo⟩ := claim_C6_amended
  refine ⟨?_, ?_, ho 7 (by decide) (by decide)⟩
  · have := (hp ⟨false, ENOENT, [], none, true, 0⟩ rfl).1
    rw [this, he]
  · have := ((hw ⟨some ERROR_PATH_NOT_FOUND, [], ERROR_NO_MORE_FILES, true, 0⟩
        ERROR_PATH_NOT_FOUND rfl).2.1 (by decide))
    rw [this, hwp]

/-- C9, counterexample: for a session whose enumeration completes
normally (`winLoop` returns the collected names) but whose `FindClose`
fails, `os_listdir` raises the close error instead of returning the
completed listing — the otherwise-completed work *is* discarded
(src/benchmark.py lines 42-44), contradicting "it does not discard
otherwise-completed work". -/
theorem claim_C9_cex :
    winLoop ["a"] ERROR_NO_MORE_FILES [] = .ok ["a"] ∧
    (os_listdir_win ⟨none, ["a"], ERROR_NO_MORE_FILES, false, 6⟩).result
      = .error (OsErr.osError 6) ∧
    (os_listdir_win ⟨none, ["a"], ERROR_NO_MORE_FILES, false, 6⟩).closes = 1 := by
  refine ⟨by simp [winLoop_eq, removeDots, keepName], ?_, rfl⟩
  simp [os_listdir_win, win_error, ERROR_FILE_NOT_FOUND, ERROR_PATH_NOT_FOUND,
    ERROR_ACCESS_DENIED]

/-- C9, amended: a failure of the native release call is surfaced as the
translated error, the close is attempted exactly once (never retried),
and the resource is considered released; in the surrounding walk such a
directory simply yields no frame (its completed listing is discarded)
while traversal continues — but the claim's "does not discard
otherwise-completed work" does not hold. -/
theorem claim_C9_amended :
    (∀ w : WinDir, w.openError = none → w.closeOk = false →
        (os_listdir_win w).result = .error (win_error w.closeError) ∧
        (os_listdir_win w).closes = 1) ∧
    (∀ p : PosixDir, p.openOk = true → p.closeOk = false →
        (os_listdir_posix p).result = .error (posix_error p.closeErrno) ∧
        (os_listdir_posix p).closes = 1) ∧
    (∀ (td ho fl : Bool) (top : Path) (e : OsErr),
        (os_walk td ho fl top (.badDir e)).1 = []) := by
  refine ⟨?_, ?_, ?_⟩
  · intro w h1 h2
    simp [os_listdir_win, h1, h2]
  · intro p h1 h2
    simp [os_listdir_posix, h1, h2]
  · intro td ho fl top e
    simp [os_walk]

theorem claim_C9_amended_witness :
    (os_listdir_posix ⟨true, 0, ["x"], none, false, 9⟩).result
        = .error (posix_error 9) ∧
    (os_listdir_posix ⟨true, 0, ["x"], none, false, 9⟩).closes = 1 := by
  exact (claim_C9_amended.2.1 ⟨true, 0, ["x"], none, false, 9⟩ rfl rfl)

/-! ### Structure of the walker's output -/

theorem os_walk_link (td ho fl : Bool) (top : Path) (t : FSNode) :
    os_walk td ho fl top (.link t) = os_walk td ho fl top t := by
  simp only [os_walk]

theorem os_walk_mut_link (mutate : Path → List String → List String)
    (td ho fl : Bool) (top : Path) (t : FSNode) :
    os_walk_mut mutate td ho fl top (.link t)
      = os_walk_mut mutate td ho fl top t := by
  simp only [os_walk_mut]

theorem sizeOf_lt_of_mem_filter_dir {p : String × FSNode}
    {names : List (String × FSNode)}
    (h : p ∈ names.filter fun q => is_dir q.2) :
    sizeOf p.2 < sizeOf (FSNode.dir names) := by
  have h1 := List.mem_of_mem_filter h
  have h2 := List.sizeOf_lt_of_mem h1
  obtain ⟨n, c⟩ := p
  simp only [Prod.mk.sizeOf_spec] at h2
  simp only [FSNode.dir.sizeOf_spec]
  omega

theorem nodup_fst_eq_snd {α β : Type _} {l : List (α × β)}
    (h : (l.map Prod.fst).Nodup) {a : α} {b c : β}
    (h1 : (a, b) ∈ l) (h2 : (a, c) ∈ l) : b = c := by
  induction l with
  | nil => simp at h1
  | cons q rest ih =>
      simp only [List.map_cons, List.nodup_cons] at h
      rcases List.mem_cons.1 h1 with e1 | m1 <;>
        rcases List.mem_cons.1 h2 with e2 | m2
      · rw [← e1] at e2
        exact (Prod.mk.injEq _ _ _ _ ▸ e2).2.symm
      · exfalso
        apply h.1
        rw [← e1]
        exact List.mem_map.2 ⟨(a, c), m2, rfl⟩
      · exfalso
        apply h.1
        rw [← e2]
        exact List.mem_map.2 ⟨(a, b), m1, rfl⟩
      · exact ih h.2 m1 m2

theorem walkDirs_nil (td ho fl : Bool) (top : Path) :
    walkDirs td ho fl top [] = ([], []) := by
  simp only [walkDirs]

theorem walkDirs_append (td ho fl : Bool) (top : Path)
    (l1 l2 : List (String × FSNode)) :
    walkDirs td ho fl top (l1 ++ l2) =
      ((walkDirs td ho fl top l1).1 ++ (walkDirs td ho fl top l2).1,
       (walkDirs td ho fl top l1).2 ++ (walkDirs td ho fl top l2).2) := by
  induction l1 with
  | nil => simp [walkDirs_nil]
  | cons p rest ih =>
      simp only [List.cons_append, walkDirs_cons, ih, List.append_assoc]

theorem walkDirs_frames_shape (td ho fl : Bool) (top : Path)
    (l : List (String × FSNode)) :
    ∀ f ∈ (walkDirs td ho fl top l).1,
      ∃ p, p ∈ l ∧ (fl || !is_link p.2) = true ∧
        f ∈ (os_walk td ho fl (top ++ [p.1]) p.2).1 := by
  induction l with
  | nil => intro f hf; simp [walkDirs_nil] at hf
  | cons q rest ih =>
      intro f hf
      rw [walkDirs_cons] at hf
      rcases List.mem_append.1 hf with h | h
      · by_cases he : (fl || !is_link q.2) = true
        · refine ⟨q, List.mem_cons_self q rest, he, ?_⟩
          rw [childWalk, if_pos he] at h
          exact h
        · rw [childWalk, if_neg he] at h
          simp at h
      · obtain ⟨p, hp, he, hw⟩ := ih f h
        exact ⟨p, List.mem_cons_of_mem _ hp, he, hw⟩

theorem os_walk_frames_ext (td ho fl : Bool) (top : Path) (node : FSNode) :
    ∀ f ∈ (os_walk td ho fl top node).1, ∃ r, f.1 = top ++ r := by
  cases node with
  | file => intro f hf; simp [os_walk] at hf
  | badDir e => intro f hf; simp [os_walk] at hf
  | link t =>
      intro f hf
      rw [os_walk_link] at hf
      exact os_walk_frames_ext td ho fl top t f hf
  | dir names =>
      intro f hf
      rw [os_walk_dir] at hf
      rcases List.mem_append.1 hf with h | h
      rotate_left
      · have hfr : f = (top, dirNames names, fileNames names) := by
          cases td <;> simp at h <;> try exact h
        exact ⟨[], by rw [hfr, List.append_nil]⟩
      rcases List.mem_append.1 h with h | h
      · have hfr : f = (top, dirNames names, fileNames names) := by
          cases td <;> simp at h <;> try exact h
        exact ⟨[], by rw [hfr, List.append_nil]⟩
      · obtain ⟨p, hp, he, hw⟩ := walkDirs_frames_shape td ho fl top _ f h
        obtain ⟨r, hr⟩ :=
          os_walk_frames_ext td ho fl (top ++ [p.1]) p.2 f hw
        refine ⟨p.1 :: r, ?_⟩
        rw [hr, List.append_assoc]
        rfl
termination_by sizeOf node
decreasing_by
  all_goals first
    | exact sizeOf_lt_of_mem_filter_dir hp
    | (simp only [FSNode.link.sizeOf_spec]; omega)

theorem countP_walkDirs_ne (td ho fl : Bool) (top : Path)
    (l : List (String × FSNode)) (name : String)
    (hnot : name ∉ l.map Prod.fst) :
    ((walkDirs td ho fl top l).1.countP fun f => f.1 == top ++ [name]) = 0 := by
  rw [List.countP_eq_zero]
  intro f hf
  obtain ⟨p, hp, he, hw⟩ := walkDirs_frames_shape td ho fl top l f hf
  obtain ⟨r, hr⟩ := os_walk_frames_ext td ho fl (top ++ [p.1]) p.2 f hw
  simp only [beq_iff_eq, hr]
  intro habs
  rw [List.append_assoc] at habs
  have h2 := List.append_cancel_left habs
  have h3 : p.1 = name := by
    have := congrArg (fun l => l.headI) h2
    simpa using this
  exact hnot (List.mem_map.2 ⟨p, hp, h3⟩)

theorem os_walk_countP_own (td ho fl : Bool) (top : Path)
    (names : List (String × FSNode)) :
    ((os_walk td ho fl top (.dir names)).1.countP fun f => f.1 == top) = 1 := by
  rw [os_walk_dir]
  have hloop :
      ((walkDirs td ho fl top (names.filter fun p => is_dir p.2)).1.countP
        fun f => f.1 == top) = 0 := by
    rw [List.countP_eq_zero]
    intro f hf
    obtain ⟨p, hp, he, hw⟩ := walkDirs_frames_shape td ho fl top _ f hf
    obtain ⟨r, hr⟩ := os_walk_frames_ext td ho fl (top ++ [p.1]) p.2 f hw
    simp only [beq_iff_eq, hr]
    intro habs
    have := congrArg List.length habs
    simp [List.length_append] at this
  cases td <;>
    simp [List.countP_append, hloop, List.countP_cons]

theorem walkDirs_no_frame_under (td ho fl : Bool) (top : Path)
    (l : List (String × FSNode)) (name : String)
    (hnone : ∀ p ∈ l, (fl || !is_link p.2) = true → p.1 ≠ name) :
    ∀ f ∈ (walkDirs td ho fl top l).1, ¬ ∃ r, f.1 = top ++ name :: r := by
  intro f hf ⟨r, hr⟩
  obtain ⟨p, hp, he, hw⟩ := walkDirs_frames_shape td ho fl top l f hf
  obtain ⟨r2, hr2⟩ := os_walk_frames_ext td ho fl (top ++ [p.1]) p.2 f hw
  rw [hr2, List.append_assoc] at hr
  have h2 := List.append_cancel_left hr
  have h3 : p.1 = name := by
    have := congrArg (fun l => l.headI) h2
    simpa using this
  exact hnone p hp he h3

/-! ### Structure of the mutating walker's output -/

theorem walkNames_nil (mutate : Path → List String → List String)
    (td ho fl : Bool) (top : Path) (dirs : List (String × FSNode)) :
    walkNames mutate td ho fl top dirs [] = ([], []) := by
  simp only [walkNames]

theorem walkNames_cons (mutate : Path → List String → List String)
    (td ho fl : Bool) (top : Path) (dirs : List (String × FSNode))
    (name : String) (rest : List String) :
    walkNames mutate td ho fl top dirs (name :: rest) =
      ((childWalkMut mutate td ho fl top dirs name).1
         ++ (walkNames mutate td ho fl top dirs rest).1,
       (childWalkMut mutate td ho fl top dirs name).2
         ++ (walkNames mutate td ho fl top dirs rest).2) := by
  simp only [walkNames, childWalkMut]
  split <;> rename_i heq <;> rw [heq]

theorem os_walk_mut_dir (mutate : Path → List String → List String)
    (td ho fl : Bool) (top : Path) (names : List (String × FSNode)) :
    os_walk_mut mutate td ho fl top (.dir names) =
      ((if td then [(top, dirNames names, fileNames names)] else [])
         ++ (walkNames mutate td ho fl top
              (names.filter fun p => is_dir p.2)
              (if td then mutate top (dirNames names)
               else dirNames names)).1
         ++ (if td then [] else [(top, dirNames names, fileNames names)]),
       (walkNames mutate td ho fl top (names.filter fun p => is_dir p.2)
          (if td then mutate top (dirNames names)
           else dirNames names)).2) := by
  simp only [os_walk_mut, dirNames, fileNames]

theorem walkNames_frames_shape (mutate : Path → List String → List String)
    (td ho fl : Bool) (top : Path) (dirs : List (String × FSNode))
    (iter : List String) :
    ∀ f ∈ (walkNames mutate td ho fl top dirs iter).1,
      ∃ name, name ∈ iter ∧ ∃ p,
        (dirs.find? fun q => q.1 == name) = some p ∧
        (fl || !is_link p.2) = true ∧
        f ∈ (os_walk_mut mutate td ho fl (top ++ [name]) p.2).1 := by
  induction iter with
  | nil => intro f hf; simp [walkNames_nil] at hf
  | cons name rest ih =>
      intro f hf
      rw [walkNames_cons] at hf
      rcases List.mem_append.1 hf with h | h
      · simp only [childWalkMut] at h
        split at h
        · rename_i p hfind
          split at h
          · rename_i he
            exact ⟨name, List.mem_cons_self name rest, p, hfind, he, h⟩
          · simp at h
        · simp at h
      · obtain ⟨n, hn, p, hfind, he, hw⟩ := ih f h
        exact ⟨n, List.mem_cons_of_mem _ hn, p, hfind, he, hw⟩

theorem os_walk_mut_frames_ext (mutate : Path → List String → List String)
    (td ho fl : Bool) (top : Path) (node : FSNode) :
    ∀ f ∈ (os_walk_mut mutate td ho fl top node).1, ∃ r, f.1 = top ++ r := by
  cases node with
  | file => intro f hf; simp [os_walk_mut] at hf
  | badDir e => intro f hf; simp [os_walk_mut] at hf
  | link t =>
      intro f hf
      rw [os_walk_mut_link] at hf
      exact os_walk_mut_frames_ext mutate td ho fl top t f hf
  | dir names =>
      intro f hf
      rw [os_walk_mut_dir] at hf
      rcases List.mem_append.1 hf with h | h
      rotate_left
      · have hfr : f = (top, dirNames names, fileNames names) := by
          cases td <;> simp at h <;> try exact h
        exact ⟨[], by rw [hfr, List.append_nil]⟩
      rcases List.mem_append.1 h with h | h
      · have hfr : f = (top, dirNames names, fileNames names) := by
          cases td <;> simp at h <;> try exact h
        exact ⟨[], by rw [hfr, List.append_nil]⟩
      · obtain ⟨n, hn, p, hfind, he, hw⟩ :=
          walkNames_frames_shape mutate td ho fl top _ _ f h
        obtain ⟨r, hr⟩ :=
          os_walk_mut_frames_ext mutate td ho fl (top ++ [n]) p.2 f hw
        refine ⟨n :: r, ?_⟩
        rw [hr, List.append_assoc]
        rfl
termination_by sizeOf node
decreasing_by
  all_goals first
    | exact sizeOf_lt_of_mem_filter_dir (List.mem_of_find?_eq_some hfind)
    | (simp only [FSNode.link.sizeOf_spec]; omega)

/-! ### Pre-order and post-order walks cover the same frames -/

theorem walkDirs_perm_pointwise (ho fl : Bool) (top : Path)
    (l : List (String × FSNode))
    (H : ∀ p ∈ l, ((os_walk true ho fl (top ++ [p.1]) p.2).1).Perm
        ((os_walk false ho fl (top ++ [p.1]) p.2).1)) :
    ((walkDirs true ho fl top l).1).Perm ((walkDirs false ho fl top l).1) := by
  induction l with
  | nil => simp [walkDirs_nil]
  | cons q rest ih =>
      rw [walkDirs_cons, walkDirs_cons]
      apply List.Perm.append
      · simp only [childWalk]
        by_cases he : (fl || !is_link q.2) = true
        · rw [if_pos he, if_pos he]
          exact H q (List.mem_cons_self q rest)
        · rw [if_neg he, if_neg he]
      · exact ih fun p hp => H p (List.mem_cons_of_mem _ hp)

theorem os_walk_perm (ho fl : Bool) (top : Path) (node : FSNode) :
    ((os_walk true ho fl top node).1).Perm ((os_walk false ho fl top node).1) := by
  cases node with
  | file => simp [os_walk]
  | badDir e => simp [os_walk]
  | link t =>
      rw [os_walk_link, os_walk_link]
      exact os_walk_perm ho fl top t
  | dir names =>
      rw [os_walk_dir, os_walk_dir]
      have hloop := walkDirs_perm_pointwise ho fl top
        (names.filter fun p => is_dir p.2)
        (fun p hp => os_walk_perm ho fl (top ++ [p.1]) p.2)
      simp only [if_true, List.append_nil, List.nil_append, Bool.true_eq_false,
        if_false, List.singleton_append]
      exact (hloop.cons _).trans (List.perm_append_singleton _ _).symm
termination_by sizeOf node
decreasing_by
  all_goals first
    | exact sizeOf_lt_of_mem_filter_dir hp
    | (simp only [FSNode.link.sizeOf_spec]; omega)

/-! ### Claims about the walker -/

/-- C3: for every directory, `os_walk` with `topdown = True` yields the
directory's own frame strictly before every frame of its descendants
(its output is its own frame followed by frames whose paths strictly
extend its path), and with `topdown = False` it yields its own frame
strictly after all of them.  Since every visited directory's frames are
produced by its own recursive `os_walk` call, this statement — which is
universally quantified over the walked directory — applies to each
directory of any tree. -/
theorem claim_C3_preorder_postorder (ho fl : Bool) (top : Path)
    (es : List (String × FSNode)) :
    ∃ descTd descBu,
      (os_walk true ho fl top (.dir es)).1
          = (top, dirNames es, fileNames es) :: descTd ∧
      (os_walk false ho fl top (.dir es)).1
          = descBu ++ [(top, dirNames es, fileNames es)] ∧
      (∀ f ∈ descTd, ∃ n r, f.1 = top ++ n :: r) ∧
      (∀ f ∈ descBu, ∃ n r, f.1 = top ++ n :: r) := by
  refine ⟨(walkDirs true ho fl top (es.filter fun p => is_dir p.2)).1,
          (walkDirs false ho fl top (es.filter fun p => is_dir p.2)).1,
          ?_, ?_, ?_, ?_⟩
  · rw [os_walk_dir]; simp
  · rw [os_walk_dir]; simp
  · intro f hf
    obtain ⟨p, hp, he, hw⟩ := walkDirs_frames_shape true ho fl top _ f hf
    obtain ⟨r, hr⟩ := os_walk_frames_ext true ho fl (top ++ [p.1]) p.2 f hw
    refine ⟨p.1, r, ?_⟩
    rw [hr, List.append_assoc]
    rfl
  · intro f hf
    obtain ⟨p, hp, he, hw⟩ := walkDirs_frames_shape false ho fl top _ f hf
    obtain ⟨r, hr⟩ := os_walk_frames_ext false ho fl (top ++ [p.1]) p.2 f hw
    refine ⟨p.1, r, ?_⟩
    rw [hr, List.append_assoc]
    rfl

/-- C7: the pre-order and post-order walks of any tree produce the same
frames — the top-down frame list is a permutation of the bottom-up one
(hence equal as a set, with the same per-directory contents), differing
only in emission order.  This holds with or without listing errors. -/
theorem claim_C7_same_cover (ho fl : Bool) (top : Path) (node : FSNode) :
    ((os_walk true ho fl top node).1).Perm
      ((os_walk false ho fl top node).1) :=
  os_walk_perm ho fl top node

/-- C4: a directory whose listing fails yields no frame and no
descendants; the error is delivered to `onerror` exactly once when a
handler is supplied and swallowed otherwise.  The second conjunct is the
spec's error-isolation scenario: in `root/dirA/dirB` plus `root/dirC`
with `dirB` unreadable, the walk still yields frames for `root`, `dirA`
and `dirC`, delivers exactly one error for `dirB`, and yields no `dirB`
frame — one unreadable subdirectory never aborts the traversal. -/
theorem claim_C4_error_isolated :
    (∀ (td ho fl : Bool) (top : Path) (e : OsErr),
        os_walk td ho fl top (.badDir e)
          = ([], if ho then [(top, e)] else [])) ∧
    os_walk true true false ["root"] errTree =
      ([(["root"], ["dirA", "dirC"], []),
        (["root", "dirA"], ["dirB"], []),
        (["root", "dirC"], [], [])],
       [(["root", "dirA", "dirB"], OsErr.permissionDenied)]) := by
  constructor
  · intro td ho fl top e
    simp [os_walk]
  · simp [errTree, os_walk_dir, walkDirs_cons, walkDirs_nil, childWalk,
      is_dir, is_link, dirNames, fileNames, os_walk]

theorem os_walk_dir_no_frame_under_link (td ho : Bool) (top : Path)
    (es : List (String × FSNode)) (name : String) (t : FSNode)
    (hmem : (name, FSNode.link t) ∈ es)
    (hnd : (es.map Prod.fst).Nodup) :
    ∀ f ∈ (os_walk td ho false top (.dir es)).1,
      ¬ ∃ r, f.1 = top ++ name :: r := by
  intro f hf hex
  obtain ⟨r, hr⟩ := hex
  rw [os_walk_dir] at hf
  rcases List.mem_append.1 hf with h | h
  rotate_left
  · have hfr : f = (top, dirNames es, fileNames es) := by
      cases td <;> simp at h <;> try exact h
    rw [hfr] at hr
    have := congrArg List.length hr
    simp at this
  rcases List.mem_append.1 h with h | h
  · have hfr : f = (top, dirNames es, fileNames es) := by
      cases td <;> simp at h <;> try exact h
    rw [hfr] at hr
    have := congrArg List.length hr
    simp at this
  · refine walkDirs_no_frame_under td ho false top _ name ?_ f h ⟨r, hr⟩
    intro p hp hep heq
    obtain ⟨pn, pc⟩ := p
    have hpe : (pn, pc) ∈ es := List.mem_of_mem_filter hp
    simp only at heq
    rw [heq] at hpe
    have hpc := nodup_fst_eq_snd hnd hpe hmem
    rw [hpc] at hep
    simp [is_link] at hep

/-- C5: for an entry of a walked directory that is a symbolic link to a
directory, `os_walk` with `followlinks = False` never recurses into it —
no frame under the link's path is ever yielded — while `os_walk` with
`followlinks = True` recurses into it exactly once: exactly one frame of
the output has the link's own path. -/
theorem claim_C5_symlink_policy (td ho : Bool) (top : Path)
    (es tes : List (String × FSNode)) (name : String)
    (hmem : (name, FSNode.link (.dir tes)) ∈ es)
    (hnd : (es.map Prod.fst).Nodup) :
    (∀ f ∈ (os_walk td ho false top (.dir es)).1,
        ¬ ∃ r, f.1 = top ++ name :: r) ∧
    ((os_walk td ho true top (.dir es)).1.countP
        fun f => f.1 == top ++ [name]) = 1 := by
  constructor
  · exact os_walk_dir_no_frame_under_link td ho top es name _ hmem hnd
  · rw [os_walk_dir]
    have hfmem : (name, FSNode.link (.dir tes)) ∈
        es.filter fun p => is_dir p.2 :=
      List.mem_filter.2 ⟨hmem, by simp [is_dir]⟩
    obtain ⟨l1, l2, hsplit⟩ := List.append_of_mem hfmem
    have hnd2 : ((es.filter fun p => is_dir p.2).map Prod.fst).Nodup :=
      List.Nodup.sublist (List.Sublist.map Prod.fst (List.filter_sublist es))
        hnd
    rw [hsplit] at hnd2
    simp only [List.map_append, List.map_cons] at hnd2
    rw [List.nodup_middle] at hnd2
    have hnotin := (List.nodup_cons.1 hnd2).1
    have hn1 : name ∉ l1.map Prod.fst :=
      fun hmem1 => hnotin (List.mem_append.2 (Or.inl hmem1))
    have hn2 : name ∉ l2.map Prod.fst :=
      fun hmem2 => hnotin (List.mem_append.2 (Or.inr hmem2))
    have hchild : (childWalk td ho true top
        (name, FSNode.link (.dir tes))).1.countP
          (fun f => f.1 == top ++ [name]) = 1 := by
      rw [childWalk]
      simp only [Bool.true_or, if_pos]
      rw [os_walk_link]
      exact os_walk_countP_own td ho true (top ++ [name]) tes
    have hfr0 :
        (decide ((top, dirNames es, fileNames es).1 = top ++ [name])) = false := by
      simp only [decide_eq_false_iff_not]
      intro habs
      have := congrArg List.length habs
      simp at this
    rw [hsplit, walkDirs_append, walkDirs_cons]
    simp only [List.countP_append]
    rw [countP_walkDirs_ne td ho true top l1 name hn1,
      countP_walkDirs_ne td ho true top l2 name hn2, hchild]
    cases td <;>
      simp [List.countP_cons, beq_iff_eq, hfr0]

/-- C10: an entry that is a symbolic link whose target is a directory is
classified by the target-following `os.path.isdir` test, so its name is
always placed in the `dirs` list of the yielded frame and never in
`files`, for any `followlinks` setting; with `followlinks = False` it
appears in `dirs` yet is never recursed into (no frame under its path is
yielded). -/
theorem claim_C10_target_following (td ho fl : Bool) (top : Path)
    (es : List (String × FSNode)) (name : String) (t : FSNode)
    (hmem : (name, FSNode.link t) ∈ es) (hdir : is_dir t = true)
    (hnd : (es.map Prod.fst).Nodup) :
    name ∈ dirNames es ∧ name ∉ fileNames es ∧
    (os_walk true ho fl top (.dir es)).1.head?
        = some (top, dirNames es, fileNames es) ∧
    (∀ f ∈ (os_walk td ho false top (.dir es)).1,
        ¬ ∃ r, f.1 = top ++ name :: r) := by
  refine ⟨?_, ?_, ?_, ?_⟩
  · exact List.mem_map.2 ⟨(name, .link t),
      List.mem_filter.2 ⟨hmem, by simp [is_dir, hdir]⟩, rfl⟩
  · intro hcon
    obtain ⟨p, hp, hfst⟩ := List.mem_map.1 hcon
    have hp2 := List.mem_filter.1 hp
    obtain ⟨pn, pc⟩ := p
    simp only at hfst
    rw [hfst] at hp2
    have hpc := nodup_fst_eq_snd hnd hp2.1 hmem
    rw [hpc] at hp2
    simp [is_dir, hdir] at hp2
  · rw [os_walk_dir]; simp
  · exact os_walk_dir_no_frame_under_link td ho top es name t hmem hnd

theorem claim_C5_symlink_policy_witness :
    (∀ f ∈ (os_walk true true false ["r"]
        (.dir [("ln", FSNode.link (.dir []))])).1,
      ¬ ∃ r, f.1 = ["r"] ++ "ln" :: r) ∧
    ((os_walk true true true ["r"]
        (.dir [("ln", FSNode.link (.dir []))])).1.countP
      fun f => f.1 == ["r"] ++ ["ln"]) = 1 :=
  claim_C5_symlink_policy true true ["r"] [("ln", FSNode.link (.dir []))] []
    "ln" (by simp) (by simp)

theorem claim_C10_target_following_witness :
    "sl" ∈ dirNames [("f", FSNode.file), ("sl", FSNode.link (.dir []))] ∧
    "sl" ∉ fileNames [("f", FSNode.file), ("sl", FSNode.link (.dir []))] ∧
    (os_walk true false false ["r"]
        (.dir [("f", FSNode.file), ("sl", FSNode.link (.dir []))])).1.head?
      = some (["r"],
          dirNames [("f", FSNode.file), ("sl", FSNode.link (.dir []))],
          fileNames [("f", FSNode.file), ("sl", FSNode.link (.dir []))]) ∧
    (∀ f ∈ (os_walk false false false ["r"]
        (.dir [("f", FSNode.file), ("sl", FSNode.link (.dir []))])).1,
      ¬ ∃ r, f.1 = ["r"] ++ "sl" :: r) :=
  claim_C10_target_following false false false ["r"]
    [("f", FSNode.file), ("sl", FSNode.link (.dir []))] "sl" (.dir [])
    (by simp) rfl (by simp)

/-- C8: in pre-order mode the caller-visible `dirs` list is authoritative
for pruning: the walker's recursion loop consumes exactly the (possibly
mutated) list the consumer left behind, in its order — first conjunct,
the output is the frame followed by the loop over `mutate top dirs` —
and a name removed from the list before the walker resumes is never
descended into: no frame under its path appears in the output — second
conjunct. -/
theorem claim_C8_prune (mutate : Path → List String → List String)
    (ho fl : Bool) (top : Path) (es : List (String × FSNode))
    (name : String) (hrem : name ∉ mutate top (dirNames es)) :
    (os_walk_mut mutate true ho fl top (.dir es)).1
        = (top, dirNames es, fileNames es)
            :: (walkNames mutate true ho fl top
                 (es.filter fun p => is_dir p.2)
                 (mutate top (dirNames es))).1 ∧
    (∀ f ∈ (os_walk_mut mutate true ho fl top (.dir es)).1,
        ¬ ∃ r, f.1 = top ++ name :: r) := by
  constructor
  · rw [os_walk_mut_dir]
    simp
  · intro f hf hex
    obtain ⟨r, hr⟩ := hex
    rw [os_walk_mut_dir] at hf
    simp only [if_true, List.append_nil, List.singleton_append] at hf
    rcases List.mem_cons.1 hf with hfr | h
    · rw [hfr] at hr
      have := congrArg List.length hr
      simp at this
    · obtain ⟨n, hn, p, hfind, he, hw⟩ :=
        walkNames_frames_shape mutate true ho fl top _ _ f h
      obtain ⟨r2, hr2⟩ :=
        os_walk_mut_frames_ext mutate true ho fl (top ++ [n]) p.2 f hw
      rw [hr2, List.append_assoc] at hr
      have h2 := List.append_cancel_left hr
      have h3 : n = name := by
        have := congrArg (fun l => l.headI) h2
        simpa using this
      rw [h3] at hn
      exact hrem hn

theorem claim_C8_prune_witness :
    ((os_walk_mut (fun _ _ => []) true true false ["r"]
        (.dir [("a", FSNode.dir [])])).1
      = (["r"], dirNames [("a", FSNode.dir [])],
          fileNames [("a", FSNode.dir [])])
          :: (walkNames (fun _ _ => []) true true false ["r"]
               ([("a", FSNode.dir [])].filter fun p => is_dir p.2) []).1) ∧
    (∀ f ∈ (os_walk_mut (fun _ _ => []) true true false ["r"]
        (.dir [("a", FSNode.dir [])])).1,
      ¬ ∃ r, f.1 = ["r"] ++ "a" :: r) :=
  claim_C8_prune (fun _ _ => []) true false ["r"] [("a", FSNode.dir [])] "a"
    (by simp)

end Betterwalk
